import Mathlib

/-!
# Verification of the chunked-execution / pagination / rate-limit / normalization core
of `wiki_utils.py`

This file gives a shallow embedding, in Lean 4, of the core control flow of the
repository's single source file `wiki_utils.py`:

* `doChunks` (chunked execution with heterogeneous merge),
* `checkEntities` / `checkTitles` (input validation and order-preserving dedup),
* `reqWDQS` (SPARQL requester: 429 Retry-After handling, content-type validation),
* `reqMediaWiki` (MediaWiki requester: bounded `ratelimited` retry),
* `normalizedTitle` (title normalization / redirect resolution),
* the `while 'continue' in j` pagination loops of `m_Redirects` / `m_PageOutLinks`.

Network effects are modelled by running each request loop against an explicit
finite script of responses (one list element per physical HTTP response), and
sleeps are recorded in an explicit trace.  Python's `None` becomes `Option`,
Python exceptions become explicit error constructors, and Python `dict`s become
association lists with `dict.update` semantics made explicit (`dictUpdate`).
-/

deriving instance DecidableEq for Except

namespace WikiUtils

/-! ## Python dictionaries as association lists

`dictInsert m k v` models `m[k] = v` on a Python dict represented as an
insertion-ordered association list: if the key is present its value is replaced
in place, otherwise the pair is appended.  `dictUpdate m d` models
`m.update(d)`. -/

def dictInsert {K V : Type} [DecidableEq K] (m : List (K × V)) (k : K) (v : V) :
    List (K × V) :=
  if m.any (fun p => p.1 = k) then
    m.map (fun p => if p.1 = k then (k, v) else p)
  else
    m ++ [(k, v)]

def dictUpdate {K V : Type} [DecidableEq K] (m d : List (K × V)) : List (K × V) :=
  d.foldl (fun acc p => dictInsert acc p.1 p.2) m

/-! ## `doChunks` (wiki_utils.py lines 51-107)

```python
n = len(x)
nlim = int(n/chunksize)
for k in range(nlim+1):
    offset = k*chunksize
    x_list = x[offset:offset+chunksize]
    if len(x_list)==0:
        break
    d = f(x_list, chunksize=chunksize, **arg)
    if d is None:
        return None
    if (k==0):
        output = d
    else:
        ... merge d into output ...
return(output)
```

The embedding below is generic in the worker `f` (which may return `none`,
modelling a Python `None` return) and in the merge step `mg` (which may fail,
modelling a runtime type error on mismatched result shapes).  It additionally
returns the trace of the slices the worker was invoked on, in invocation
order, so that claims about the number and contents of worker invocations can
be stated.  `PyResult.unboundLocal` models the `UnboundLocalError` Python
raises at `return(output)` when the loop body never assigned `output` (which
happens exactly when the input list is empty). -/

/-- Python slice `x[k*c : k*c + c]`. -/
def chunkSlice {α : Type} (x : List α) (c k : Nat) : List α :=
  (x.drop (k * c)).take c

inductive PyResult (β : Type) where
  | val (b : β)
  | noneResult
  | unboundLocal
  | mergeError
  deriving DecidableEq, Repr

/-- `return(output)` at loop exit: `output` may never have been assigned. -/
def exitResult {β : Type} : Option β → PyResult β
  | some o => .val o
  | none => .unboundLocal

/-- One pass of the `for k in range(nlim+1)` loop of `doChunks`, with `fuel`
remaining iterations of the `range`, current index `k`, and the current value
of the Python variable `output` (`none` = not yet assigned).  Returns the list
of slices the worker was invoked on together with the function's result. -/
def doChunksLoop {α β : Type} (f : List α → Option β) (mg : β → β → Option β)
    (x : List α) (c : Nat) : Nat → Nat → Option β → List (List α) × PyResult β
  | 0, _, out => ([], exitResult out)
  | fuel + 1, k, out =>
    let xl := chunkSlice x c k
    if xl.length = 0 then ([], exitResult out)
    else
      match f xl with
      | none => ([xl], .noneResult)
      | some d =>
        if k = 0 then
          let r := doChunksLoop f mg x c fuel (k + 1) (some d)
          (xl :: r.1, r.2)
        else
          match out with
          | none => ([xl], .unboundLocal)
          | some o =>
            match mg o d with
            | none => ([xl], .mergeError)
            | some o' =>
              let r := doChunksLoop f mg x c fuel (k + 1) (some o')
              (xl :: r.1, r.2)

/-- `doChunks f x chunksize`: the loop runs over `range(nlim+1)` with
`nlim = int(n/chunksize)` (floor division for nonnegative `n`). -/
def doChunks {α β : Type} (f : List α → Option β) (mg : β → β → Option β)
    (x : List α) (c : Nat) : List (List α) × PyResult β :=
  doChunksLoop f mg x c (x.length / c + 1) 0 none

/-- `ceil(n/c)` on naturals (for `c ≥ 1`). -/
def ceilDiv (n c : Nat) : Nat := (n + c - 1) / c

theorem lt_ceilDiv_iff {n c k : Nat} (hc : 1 ≤ c) : k < ceilDiv n c ↔ k * c < n := by
  unfold ceilDiv
  rcases Nat.eq_zero_or_pos n with hn | hn
  · subst hn
    have h0 : (c - 1) / c = 0 := Nat.div_eq_of_lt (by omega)
    simp [h0]
  · have h1 : k < (n + c - 1) / c ↔ k + 1 ≤ (n + c - 1) / c := Nat.lt_iff_add_one_le
    have h2 : k + 1 ≤ (n + c - 1) / c ↔ (k + 1) * c ≤ n + c - 1 :=
      Nat.le_div_iff_mul_le (by omega)
    have h3 : (k + 1) * c = k * c + c := by ring
    omega

theorem ceilDiv_le_div_succ {n c : Nat} (hc : 1 ≤ c) : ceilDiv n c ≤ n / c + 1 := by
  unfold ceilDiv
  calc (n + c - 1) / c ≤ (n + c) / c := Nat.div_le_div_right (by omega)
    _ = n / c + 1 := Nat.add_div_right n (by omega)

theorem chunkSlice_length {α : Type} (x : List α) (c k : Nat) :
    (chunkSlice x c k).length = min c (x.length - k * c) := by
  simp [chunkSlice]

theorem chunkSlice_eq_nil {α : Type} {x : List α} {c k : Nat} (h : x.length ≤ k * c) :
    (chunkSlice x c k).length = 0 := by
  rw [chunkSlice_length]; omega

theorem chunkSlice_ne_nil {α : Type} {x : List α} {c k : Nat} (hc : 1 ≤ c)
    (h : k * c < x.length) : (chunkSlice x c k).length ≠ 0 := by
  rw [chunkSlice_length]; omega

theorem doChunksLoop_calls_total {α β : Type} (f : List α → β) (g : β → β → β)
    (x : List α) (c : Nat) (hc : 1 ≤ c) :
    ∀ (fuel k : Nat) (o : Option β), (k ≠ 0 → o.isSome) →
      k + fuel = x.length / c + 1 →
      (doChunksLoop (fun l => some (f l)) (fun a b => some (g a b)) x c fuel k o).1
        = (List.range' k (ceilDiv x.length c - k)).map (chunkSlice x c) := by
  intro fuel
  induction fuel with
  | zero =>
    intro k o _ hk
    have : ceilDiv x.length c - k = 0 := by
      have := ceilDiv_le_div_succ (n := x.length) hc; omega
    simp [doChunksLoop, this]
  | succ fuel ih =>
    intro k o ho hk
    by_cases hlt : k < ceilDiv x.length c
    · have hne := chunkSlice_ne_nil hc ((lt_ceilDiv_iff hc).mp hlt)
      have hsub : ceilDiv x.length c - k = (ceilDiv x.length c - (k + 1)) + 1 := by omega
      rcases Nat.eq_zero_or_pos k with hk0 | hkpos
      · subst hk0
        simp only [doChunksLoop, hne, if_false, if_true, reduceIte]
        rw [ih 1 (some (f (chunkSlice x c 0))) (fun _ => rfl) (by omega)]
        rw [hsub, List.range'_succ, List.map_cons]
      · obtain ⟨o', rfl⟩ := Option.isSome_iff_exists.mp (ho (by omega))
        have hk0 : ¬ (k = 0) := by omega
        simp only [doChunksLoop, hne, if_false, hk0, reduceIte]
        rw [ih (k + 1) (some (g o' (f (chunkSlice x c k)))) (fun _ => rfl) (by omega)]
        rw [hsub, List.range'_succ, List.map_cons]
    · have hge : x.length ≤ k * c := by
        by_contra hcon
        exact hlt ((lt_ceilDiv_iff hc).mpr (by omega))
      have : ceilDiv x.length c - k = 0 := by omega
      simp [doChunksLoop, chunkSlice_eq_nil hge, this]

theorem doChunksLoop_none {α β : Type} (f : List α → Option β) (g : β → β → β)
    (x : List α) (c k0 : Nat) (hc : 1 ≤ c) (hk0 : k0 < ceilDiv x.length c)
    (hsome : ∀ i, i < k0 → (f (chunkSlice x c i)).isSome)
    (hnone : f (chunkSlice x c k0) = none) :
    ∀ (fuel k : Nat) (o : Option β), (k ≠ 0 → o.isSome) →
      k + fuel = x.length / c + 1 → k ≤ k0 →
      doChunksLoop f (fun a b => some (g a b)) x c fuel k o
        = ((List.range' k (k0 + 1 - k)).map (chunkSlice x c), .noneResult) := by
  intro fuel
  induction fuel with
  | zero =>
    intro k o _ hk hkk0
    exfalso
    have h1 := ceilDiv_le_div_succ (n := x.length) hc
    omega
  | succ fuel ih =>
    intro k o ho hk hkk0
    have hlt : k < ceilDiv x.length c := by omega
    have hne := chunkSlice_ne_nil hc ((lt_ceilDiv_iff hc).mp hlt)
    rcases Nat.lt_or_ge k k0 with hklt | hkge
    · obtain ⟨d, hd⟩ := Option.isSome_iff_exists.mp (hsome k hklt)
      have hsub : k0 + 1 - k = (k0 + 1 - (k + 1)) + 1 := by omega
      rcases Nat.eq_zero_or_pos k with hk0 | hkpos
      · subst hk0
        simp only [doChunksLoop, hne, if_false, hd, if_true, reduceIte]
        rw [ih 1 (some d) (fun _ => rfl) (by omega) (by omega)]
        rw [hsub, List.range'_succ, List.map_cons]
      · obtain ⟨o', rfl⟩ := Option.isSome_iff_exists.mp (ho (by omega))
        have hknz : ¬ (k = 0) := by omega
        simp only [doChunksLoop, hne, if_false, hd, hknz, reduceIte]
        rw [ih (k + 1) (some (g o' d)) (fun _ => rfl) (by omega) (by omega)]
        rw [hsub, List.range'_succ, List.map_cons]
    · have hkeq : k = k0 := by omega
      subst hkeq
      have hsub : k + 1 - k = 1 := by omega
      simp [doChunksLoop, hne, hnone, hsub, List.range'_succ]

/-- **C1.** For every work list `x` and chunk size `c ≥ 1`, `doChunks` (with a
worker and merge step that always succeed) invokes the worker exactly
`ceil(len(x)/c)` times, the `k`-th invocation receiving the contiguous slice
`x[k*c:(k+1)*c]`, in list order.  For an empty work list this count is `0`: the
single pass of the loop breaks immediately without invoking the worker
(`List.range 0 = []`). -/
theorem doChunks_worker_calls {α β : Type} (f : List α → β) (g : β → β → β)
    (x : List α) (c : Nat) (hc : 1 ≤ c) :
    (doChunks (fun l => some (f l)) (fun a b => some (g a b)) x c).1
      = (List.range (ceilDiv x.length c)).map (chunkSlice x c) := by
  unfold doChunks
  rw [doChunksLoop_calls_total f g x c hc (x.length / c + 1) 0 none (by simp) (by omega)]
  rw [List.range_eq_range']
  simp

/-- Witness for C1: the spec's own scenario, `["Q1","Q2","Q3"]` with chunk
size 2 yields exactly the two worker invocations `["Q1","Q2"]` and `["Q3"]`. -/
theorem doChunks_worker_calls_witness :
    (doChunks (fun l : List String => some l) (fun a _ => some a) ["Q1", "Q2", "Q3"] 2).1
      = [["Q1", "Q2"], ["Q3"]] := by
  have h := doChunks_worker_calls (fun l : List String => l) (fun a _ => a)
    ["Q1", "Q2", "Q3"] 2 (by decide)
  exact h.trans (by decide)

/-- **C5.** If the worker returns the `None` sentinel on batch `k0` (all earlier
batches succeeding), `doChunks` returns `None` immediately: the worker is
invoked exactly on batches `0..k0` and on no further batch, and the result is
`PyResult.noneResult`, which carries no partial aggregate — everything already
merged is discarded. -/
theorem doChunks_none_fail_fast {α β : Type} (f : List α → Option β) (g : β → β → β)
    (x : List α) (c k0 : Nat) (hc : 1 ≤ c) (hk0 : k0 < ceilDiv x.length c)
    (hsome : ∀ i, i < k0 → (f (chunkSlice x c i)).isSome)
    (hnone : f (chunkSlice x c k0) = none) :
    doChunks f (fun a b => some (g a b)) x c
      = ((List.range (k0 + 1)).map (chunkSlice x c), .noneResult) := by
  unfold doChunks
  rw [doChunksLoop_none f g x c k0 hc hk0 hsome hnone (x.length / c + 1) 0 none
    (by simp) (by omega) (by omega)]
  rw [List.range_eq_range']
  simp

/-- Witness for C5: worker list `["a","b","c"]` with chunk size 1, the worker
returning `None` on `["b"]`; `doChunks` stops after the second invocation and
returns `None`, with no aggregate. -/
theorem doChunks_none_fail_fast_witness :
    doChunks (fun l : List String => if l = ["b"] then none else some 0)
        (fun a b : Nat => some (a + b)) ["a", "b", "c"] 1
      = ([["a"], ["b"]], .noneResult) := by
  have h := doChunks_none_fail_fast
    (fun l : List String => if l = ["b"] then none else some 0) (fun a b : Nat => a + b)
    ["a", "b", "c"] 1 1 (by decide) (by decide) (by decide) (by decide)
  exact h.trans (by decide)

/-! ## The merge step of `doChunks` (wiki_utils.py lines 90-104)

```python
if isinstance(d,dict):
    output.update(d)
elif isinstance(d,tuple):
    d0 = d[0]  # d[0] can be dict or Pandas-Dataframe
    d1 = d[1]  # d[1] always is a dict
    output[1].update(d1)
    if isinstance(d0,dict):
        output[0].update(d0)
    else:
        output = (pd.concat([output[0], d0]), output[1])
else:
    output = pd.concat([output, d])
```

Worker results are dicts, Pandas data frames (modelled as row lists), or pairs
of a dict-or-frame with a dict.  `pyMerge out d` returns `none` when the two
shapes are incompatible (a runtime type error in Python). -/

inductive PdFirst (K V R : Type) where
  | fdict (m : List (K × V))
  | ftable (t : List R)
  deriving DecidableEq, Repr

inductive PyVal (K V R : Type) where
  | pdict (m : List (K × V))
  | ptable (t : List R)
  | ptuple (d0 : PdFirst K V R) (d1 : List (K × V))
  deriving DecidableEq, Repr

def pyMerge {K V R : Type} [DecidableEq K] (out d : PyVal K V R) :
    Option (PyVal K V R) :=
  match d with
  | .pdict dm =>
    match out with
    | .pdict m => some (.pdict (dictUpdate m dm))
    | _ => none
  | .ptuple d0 d1 =>
    match out with
    | .ptuple o0 o1 =>
      match o0, d0 with
      | .fdict om, .fdict dm => some (.ptuple (.fdict (dictUpdate om dm)) (dictUpdate o1 d1))
      | .ftable ot, .ftable dt => some (.ptuple (.ftable (ot ++ dt)) (dictUpdate o1 d1))
      | _, _ => none
    | _ => none
  | .ptable dt =>
    match out with
    | .ptable ot => some (.ptable (ot ++ dt))
    | _ => none

/-- Key lookup on an association-list dict (first entry with the key wins,
mirroring `m[k]` on a Python dict, whose keys are unique). -/
def dlookup {K V : Type} [DecidableEq K] (k : K) : List (K × V) → Option V
  | [] => none
  | p :: rest => if p.1 = k then some p.2 else dlookup k rest

/-- `next(n for n in [a, b] if n is not None)`-style choice: the first of two
optional values that is present. -/
def firstSome {V : Type} (a b : Option V) : Option V :=
  match a with
  | some x => some x
  | none => b

theorem dlookup_eq_none_of_not_mem {K V : Type} [DecidableEq K] {k : K}
    {d : List (K × V)} (h : k ∉ d.map Prod.fst) : dlookup k d = none := by
  induction d with
  | nil => rfl
  | cons p rest ih =>
    simp only [List.map_cons, List.mem_cons] at h
    push_neg at h
    simp only [dlookup]
    rw [if_neg (fun hh => h.1 hh.symm)]
    exact ih h.2

theorem dlookup_map_replace {K V : Type} [DecidableEq K] {k' k : K} (v : V)
    (m : List (K × V)) (hne : k' ≠ k) :
    dlookup k' (m.map (fun p => if p.1 = k then (k, v) else p)) = dlookup k' m := by
  induction m with
  | nil => rfl
  | cons p rest ih =>
    rw [List.map_cons]
    by_cases hp : p.1 = k
    · rw [if_pos hp]
      simp only [dlookup]
      rw [if_neg (show ¬ ((k, v).1 = k') from fun hh => hne hh.symm),
          if_neg (show ¬ (p.1 = k') from fun hh => hne (hp.symm.trans hh).symm)]
      exact ih
    · rw [if_neg hp]
      simp only [dlookup]
      by_cases hpk : p.1 = k'
      · rw [if_pos hpk, if_pos hpk]
      · rw [if_neg hpk, if_neg hpk]
        exact ih

theorem dlookup_map_replace_self {K V : Type} [DecidableEq K] {k : K} (v : V)
    (m : List (K × V)) (hmem : m.any (fun p => p.1 = k)) :
    dlookup k (m.map (fun p => if p.1 = k then (k, v) else p)) = some v := by
  induction m with
  | nil => simp at hmem
  | cons p rest ih =>
    rw [List.map_cons]
    by_cases hp : p.1 = k
    · rw [if_pos hp]
      simp [dlookup]
    · rw [if_neg hp]
      simp only [dlookup]
      rw [if_neg hp]
      apply ih
      simp only [List.any_cons, Bool.or_eq_true] at hmem
      rcases hmem with h | h
      · exact absurd (of_decide_eq_true h) hp
      · exact h

theorem dlookup_append_single {K V : Type} [DecidableEq K] (k' k : K) (v : V)
    (m : List (K × V)) (hnm : k ∉ m.map Prod.fst) :
    dlookup k' (m ++ [(k, v)]) = if k' = k then some v else dlookup k' m := by
  induction m with
  | nil =>
    simp only [List.nil_append, dlookup]
    by_cases hk : k' = k
    · rw [if_pos hk.symm, if_pos hk]
    · rw [if_neg (fun hh : k = k' => hk hh.symm), if_neg hk]
  | cons p rest ih =>
    simp only [List.map_cons, List.mem_cons] at hnm
    push_neg at hnm
    rw [List.cons_append]
    simp only [dlookup]
    by_cases hpk : p.1 = k'
    · have hk : ¬ (k' = k) := by
        intro hh
        exact hnm.1 (by rw [hh] at hpk; exact hpk.symm)
      rw [if_pos hpk, if_neg hk, if_pos hpk]
    · rw [if_neg hpk, if_neg hpk, ih hnm.2]

theorem dlookup_dictInsert {K V : Type} [DecidableEq K] (k' k : K) (v : V)
    (m : List (K × V)) :
    dlookup k' (dictInsert m k v) = if k' = k then some v else dlookup k' m := by
  unfold dictInsert
  by_cases hany : m.any (fun p => p.1 = k)
  · rw [if_pos hany]
    by_cases hk : k' = k
    · subst hk
      rw [if_pos rfl, dlookup_map_replace_self v m hany]
    · rw [if_neg hk, dlookup_map_replace v m hk]
  · rw [if_neg hany]
    have hnm : k ∉ m.map Prod.fst := by
      intro hmem
      obtain ⟨p, hp, hpk⟩ := List.mem_map.mp hmem
      exact hany (List.any_eq_true.mpr ⟨p, hp, by simp [hpk]⟩)
    exact dlookup_append_single k' k v m hnm

theorem dlookup_dictUpdate {K V : Type} [DecidableEq K] (m d : List (K × V))
    (hd : (d.map Prod.fst).Nodup) (k : K) :
    dlookup k (dictUpdate m d) = firstSome (dlookup k d) (dlookup k m) := by
  induction d generalizing m with
  | nil => simp [dictUpdate, dlookup, firstSome]
  | cons p d' ih =>
    simp only [List.map_cons, List.nodup_cons] at hd
    have hstep : dictUpdate m (p :: d') = dictUpdate (dictInsert m p.1 p.2) d' := rfl
    rw [hstep, ih (dictInsert m p.1 p.2) hd.2, dlookup_dictInsert]
    simp only [dlookup]
    by_cases hk : p.1 = k
    · have hnone : dlookup k d' = none := dlookup_eq_none_of_not_mem (hk ▸ hd.1)
      rw [hnone, if_pos hk, if_pos hk.symm]
      rfl
    · rw [if_neg hk, if_neg (fun hh : k = p.1 => hk hh.symm)]

/-- **C6.** `doChunks` merges each batch's result into the aggregate by shape:
dict results are merged with `dict.update` — overwrite-union on keys, the later
batch's value winning, as witnessed by the `dlookup` equation — data-frame
results are concatenated row-wise in batch order, and for pair results the
second component (always a dict) is union-merged while the first component is
union-merged or concatenated according to its own dict/data-frame shape. -/
theorem doChunks_merge_by_shape {K V R : Type} [DecidableEq K] :
    (∀ (m d : List (K × V)), pyMerge (R := R) (.pdict m) (.pdict d)
        = some (.pdict (dictUpdate m d)))
    ∧ (∀ (m d : List (K × V)), (d.map Prod.fst).Nodup → ∀ (k : K),
        dlookup k (dictUpdate m d) = firstSome (dlookup k d) (dlookup k m))
    ∧ (∀ (t u : List R), pyMerge (K := K) (V := V) (.ptable t) (.ptable u)
        = some (.ptable (t ++ u)))
    ∧ (∀ (om dm o1 d1 : List (K × V)), pyMerge (R := R)
        (.ptuple (.fdict om) o1) (.ptuple (.fdict dm) d1)
        = some (.ptuple (.fdict (dictUpdate om dm)) (dictUpdate o1 d1)))
    ∧ (∀ (ot dt : List R) (o1 d1 : List (K × V)), pyMerge
        (.ptuple (.ftable ot) o1) (.ptuple (.ftable dt) d1)
        = some (.ptuple (.ftable (ot ++ dt)) (dictUpdate o1 d1))) :=
  ⟨fun _ _ => rfl,
   fun m d hd k => dlookup_dictUpdate m d hd k,
   fun _ _ => rfl,
   fun _ _ _ _ => rfl,
   fun _ _ _ _ => rfl⟩

/-- Witness for C6: a concrete overwrite-union where the later batch's value
wins on the common key `2`. -/
theorem doChunks_merge_by_shape_witness :
    dlookup 2 (dictUpdate [(1, 10), (2, 20)] [(2, 99), (3, 7)]) = some 99 :=
  ((doChunks_merge_by_shape (R := Nat)).2.1 [(1, 10), (2, 20)] [(2, 99), (3, 7)]
    (by decide) 2).trans (by decide)

/-! ## The pagination loop of `m_Redirects` / `m_PageOutLinks`
(wiki_utils.py lines 2363-2399 and 2874-2918)

```python
while True:
    j = reqMediaWiki(query=query, project=project, debug=debug)
    if j is None or "query" not in j:
        return None
    q = j['query']
    ... merge q's records into output (may consult 'continue' in query) ...
    if 'continue' in j:
        query.update(j['continue'])
    else:
        break
```

The remote server is modelled as a finite script of decoded response pages;
each loop iteration consumes one page, i.e. issues exactly one request.  A page
carries an optional `query` part (`none` models `"query" not in j`, the
`return None` path) and an optional `continue` token, a field map that is
merged verbatim (`dict.update`) into the request parameters of the next
iteration.  The per-page record merge is abstracted as `step`, which receives
the current request parameters (the source consults `'continue' not in query`
there), the accumulator and the page's `query` part.  The returned trace lists
the request parameters of every issued request, in order. -/

structure MWPage (Q : Type) where
  query : Option Q
  cont : Option (List (String × String))
  deriving DecidableEq, Repr

inductive DrainOut (A : Type) where
  | ok (a : A)
  | noneResult
  | scriptEnded
  deriving DecidableEq, Repr

def drainLoop {Q A : Type} (step : List (String × String) → A → Q → A) :
    List (MWPage Q) → List (String × String) → A →
      List (List (String × String)) × DrainOut A
  | [], _, _ => ([], .scriptEnded)
  | p :: rest, params, acc =>
    match p.query with
    | none => ([params], .noneResult)
    | some q =>
      let acc' := step params acc q
      match p.cont with
      | some c =>
        let r := drainLoop step rest (dictUpdate params c) acc'
        (params :: r.1, r.2)
      | none => ([params], .ok acc')

theorem drainLoop_cons_some {Q A : Type} (step : List (String × String) → A → Q → A)
    (p : MWPage Q) (rest : List (MWPage Q)) (params : List (String × String)) (acc : A)
    (q : Q) (c : List (String × String)) (hq : p.query = some q) (hc : p.cont = some c) :
    drainLoop step (p :: rest) params acc
      = (params :: (drainLoop step rest (dictUpdate params c) (step params acc q)).1,
         (drainLoop step rest (dictUpdate params c) (step params acc q)).2) := by
  simp [drainLoop, hq, hc]

/-- **C2.** The pagination loop issues exactly one request per response page:
while the decoded response carries a `continue` token, the token's fields are
merged verbatim (`dict.update`) into the query parameters of the next request,
and the loop stops exactly at the first response that lacks the token.  First
conjunct: for any response script in which precisely the non-final pages carry
a token (and every page has a `query` part), the loop issues exactly one
request per page and returns an accumulator.  Second conjunct: for a 3-page
script (tokens on the first two pages only) this gives exactly 3 requests,
with the stated parameter evolution, and an accumulator that merges all three
pages' records in page order. -/
theorem pagination_one_request_per_page {Q A : Type}
    (step : List (String × String) → A → Q → A) :
    (∀ (ps : List (MWPage Q)) (params : List (String × String)) (a : A),
      ps ≠ [] →
      (∀ p ∈ ps, p.query.isSome) →
      (∀ (i : Nat) (hi : i < ps.length), (ps[i].cont.isSome ↔ i + 1 < ps.length)) →
      (drainLoop step ps params a).1.length = ps.length
        ∧ ∃ b, (drainLoop step ps params a).2 = .ok b)
    ∧ (∀ (q1 q2 q3 : Q) (c1 c2 P0 : List (String × String)) (a0 : A),
      drainLoop step
          [⟨some q1, some c1⟩, ⟨some q2, some c2⟩, ⟨some q3, none⟩] P0 a0
        = ([P0, dictUpdate P0 c1, dictUpdate (dictUpdate P0 c1) c2],
           .ok (step (dictUpdate (dictUpdate P0 c1) c2)
                 (step (dictUpdate P0 c1) (step P0 a0 q1) q2) q3))) := by
  constructor
  · intro ps
    induction ps with
    | nil => intro _ _ h; exact absurd rfl h
    | cons p rest ih =>
      intro params a _ hq hcont
      obtain ⟨q, hq0⟩ := Option.isSome_iff_exists.mp (hq p (List.mem_cons_self p rest))
      cases rest with
      | nil =>
        have h0 := hcont 0 (by simp)
        simp only [List.getElem_cons_zero, List.length_cons, List.length_nil] at h0
        have hnone : p.cont = none := by
          rcases h : p.cont with _ | c
          · rfl
          · exact absurd (h0.mp (by rw [h]; rfl)) (by omega)
        simp [drainLoop, hq0, hnone]
      | cons p2 rest2 =>
        have h0 := hcont 0 (by simp)
        simp only [List.getElem_cons_zero, List.length_cons] at h0
        obtain ⟨c, hc⟩ := Option.isSome_iff_exists.mp (h0.mpr (by omega))
        have hrec := ih (dictUpdate params c) (step params a q) (List.cons_ne_nil p2 rest2)
          (fun x hx => hq x (List.mem_cons_of_mem p hx))
          (fun i hi => by
            simp only [List.length_cons] at hi
            have h := hcont (i + 1) (by simp only [List.length_cons]; omega)
            simp only [List.getElem_cons_succ, List.length_cons] at h
            simp only [List.length_cons]
            constructor
            · intro hs
              have := h.mp hs
              omega
            · intro hlt
              exact h.mpr (by omega))
        rw [drainLoop_cons_some step p (p2 :: rest2) params a q c hq0 hc]
        exact ⟨by simp [hrec.1], hrec.2⟩
  · intro q1 q2 q3 c1 c2 P0 a0
    rfl

/-- Witness for C2: the spec's continuation-draining scenario — a script of 3
pages, the first two with a continuation token, results in exactly 3 requests
and an `ok` accumulator. -/
theorem pagination_one_request_per_page_witness :
    (drainLoop (fun _ acc (q : String) => acc ++ [q])
        [⟨some "page1", some [("plcontinue", "A")]⟩,
         ⟨some "page2", some [("plcontinue", "B")]⟩,
         ⟨some "page3", none⟩] [("action", "query")] ([] : List String)).1.length = 3
    ∧ ∃ b, (drainLoop (fun _ acc (q : String) => acc ++ [q])
        [⟨some "page1", some [("plcontinue", "A")]⟩,
         ⟨some "page2", some [("plcontinue", "B")]⟩,
         ⟨some "page3", none⟩] [("action", "query")] ([] : List String)).2 = .ok b :=
  (pagination_one_request_per_page (fun _ acc (q : String) => acc ++ [q])).1
    [⟨some "page1", some [("plcontinue", "A")]⟩,
     ⟨some "page2", some [("plcontinue", "B")]⟩,
     ⟨some "page3", none⟩] [("action", "query")] ([] : List String)
    (by decide) (by decide) (by decide)

/-! ## Dedup: `list(dict.fromkeys(l))`
(wiki_utils.py lines 128-129 and 2058-2059)

`dict.fromkeys` inserts the keys left to right, keeping the first occurrence
of each and its position; `list(...)` then reads them back in insertion order.
The embedding performs the same single pass, carrying the set of keys already
seen. -/

def pyDedupAux {α : Type} [DecidableEq α] (seen : List α) : List α → List α
  | [] => []
  | x :: xs => if x ∈ seen then pyDedupAux seen xs else x :: pyDedupAux (seen ++ [x]) xs

/-- `list(dict.fromkeys(l))`: duplicates removed, first-occurrence order. -/
def pyDedup {α : Type} [DecidableEq α] (l : List α) : List α := pyDedupAux [] l

theorem mem_pyDedupAux {α : Type} [DecidableEq α] (l : List α) :
    ∀ (seen : List α) (a : α), a ∈ pyDedupAux seen l ↔ a ∈ l ∧ a ∉ seen := by
  induction l with
  | nil => intro seen a; simp [pyDedupAux]
  | cons x xs ih =>
    intro seen a
    by_cases hx : x ∈ seen
    · rw [pyDedupAux, if_pos hx, ih]
      constructor
      · rintro ⟨h1, h2⟩
        exact ⟨List.mem_cons_of_mem x h1, h2⟩
      · rintro ⟨h1, h2⟩
        rcases List.mem_cons.mp h1 with rfl | h1
        · exact absurd hx h2
        · exact ⟨h1, h2⟩
    · rw [pyDedupAux, if_neg hx]
      constructor
      · intro h
        rcases List.mem_cons.mp h with rfl | h
        · exact ⟨List.mem_cons_self a xs, hx⟩
        · obtain ⟨h1, h2⟩ := (ih _ a).mp h
          simp only [List.mem_append, List.mem_singleton] at h2
          push_neg at h2
          exact ⟨List.mem_cons_of_mem x h1, h2.1⟩
      · rintro ⟨h1, h2⟩
        rcases List.mem_cons.mp h1 with rfl | h1
        · exact List.mem_cons_self a _
        · by_cases hax : a = x
          · subst hax; exact List.mem_cons_self a _
          · refine List.mem_cons_of_mem x ((ih _ a).mpr ⟨h1, ?_⟩)
            simp only [List.mem_append, List.mem_singleton]
            push_neg
            exact ⟨h2, hax⟩

theorem nodup_pyDedupAux {α : Type} [DecidableEq α] (l : List α) :
    ∀ (seen : List α), (pyDedupAux seen l).Nodup := by
  induction l with
  | nil => intro seen; simp [pyDedupAux]
  | cons x xs ih =>
    intro seen
    by_cases hx : x ∈ seen
    · rw [pyDedupAux, if_pos hx]; exact ih seen
    · rw [pyDedupAux, if_neg hx]
      refine List.nodup_cons.mpr ⟨?_, ih _⟩
      intro hmem
      have := ((mem_pyDedupAux xs _ x).mp hmem).2
      simp at this

theorem pyDedupAux_eq_self {α : Type} [DecidableEq α] (l : List α) :
    ∀ (seen : List α), l.Nodup → (∀ a ∈ l, a ∉ seen) → pyDedupAux seen l = l := by
  induction l with
  | nil => intro seen _ _; rfl
  | cons x xs ih =>
    intro seen hnd hdisj
    have hx : x ∉ seen := hdisj x (List.mem_cons_self x xs)
    rw [pyDedupAux, if_neg hx]
    congr 1
    refine ih _ (List.nodup_cons.mp hnd).2 ?_
    intro a ha
    simp only [List.mem_append, List.mem_singleton]
    push_neg
    refine ⟨hdisj a (List.mem_cons_of_mem x ha), ?_⟩
    rintro rfl
    exact (List.nodup_cons.mp hnd).1 ha

theorem pairwise_indexOf_pyDedupAux {α : Type} [DecidableEq α] (l : List α) :
    ∀ (seen : List α),
      (pyDedupAux seen l).Pairwise (fun a b => l.indexOf a < l.indexOf b) := by
  induction l with
  | nil => intro seen; simp [pyDedupAux]
  | cons x xs ih =>
    intro seen
    have hmem_ne : ∀ (s : List α) (b : α), b ∈ pyDedupAux (s ++ [x]) xs → b ≠ x := by
      intro s b hb
      have := ((mem_pyDedupAux xs _ b).mp hb).2
      simp only [List.mem_append, List.mem_singleton] at this
      push_neg at this
      exact this.2
    by_cases hx : x ∈ seen
    · rw [pyDedupAux, if_pos hx]
      refine (ih seen).imp_of_mem ?_
      intro a b ha hb hlt
      have hax : a ∈ xs ∧ a ∉ seen := (mem_pyDedupAux xs seen a).mp ha
      have hbx : b ∈ xs ∧ b ∉ seen := (mem_pyDedupAux xs seen b).mp hb
      have hane : a ≠ x := fun hh => hax.2 (hh ▸ hx)
      have hbne : b ≠ x := fun hh => hbx.2 (hh ▸ hx)
      rw [List.indexOf_cons_ne xs (Ne.symm hane), List.indexOf_cons_ne xs (Ne.symm hbne)]
      omega
    · rw [pyDedupAux, if_neg hx]
      refine List.pairwise_cons.mpr ⟨?_, ?_⟩
      · intro b hb
        have hbne := hmem_ne seen b hb
        rw [List.indexOf_cons_self, List.indexOf_cons_ne xs (Ne.symm hbne)]
        omega
      · refine (ih (seen ++ [x])).imp_of_mem ?_
        intro a b ha hb hlt
        have hane := hmem_ne seen a ha
        have hbne := hmem_ne seen b hb
        rw [List.indexOf_cons_ne xs (Ne.symm hane), List.indexOf_cons_ne xs (Ne.symm hbne)]
        omega

/-- **C9.** The dedup applied to every work list (`list(dict.fromkeys(...))` in
`checkEntities` and `checkTitles`) is idempotent and order-preserving: for
every list `L`, `dedup (dedup L) = dedup L`; the result contains each distinct
element of `L` exactly once (`Nodup` plus the membership equivalence); and its
elements appear ordered by the position of their first occurrence in `L`. -/
theorem pyDedup_idempotent_order_preserving {α : Type} [DecidableEq α] (L : List α) :
    pyDedup (pyDedup L) = pyDedup L
    ∧ (pyDedup L).Nodup
    ∧ (∀ a, a ∈ pyDedup L ↔ a ∈ L)
    ∧ (pyDedup L).Pairwise (fun a b => L.indexOf a < L.indexOf b) := by
  refine ⟨?_, nodup_pyDedupAux L [], ?_, pairwise_indexOf_pyDedupAux L []⟩
  · exact pyDedupAux_eq_self (pyDedup L) [] (nodup_pyDedupAux L []) (by simp)
  · intro a
    rw [pyDedup, mem_pyDedupAux]
    simp

/-! ## Input validation: `checkEntities` (lines 111-130) and `checkTitles`
(lines 2038-2060)

```python
entity_list = [x.strip() for x in entity_list if not re.match('\s*$', x)]
if len(entity_list) == 0:
    raise ValueError("Invalid value for parameter 'entity_list'")
for q in entity_list:
    m = re.match(r'(?:Q|P)\d+$', q)
    if m is None:
        raise ValueError(f"Invalid value in parameter 'entity_list': '{q}'")
entity_list = list(dict.fromkeys(entity_list))
```

```python
titles = [x.strip() for x in titles if not re.match('\s*$', x)]
if len(titles) == 0:
    raise ValueError("Invalid value for parameter 'titles'")
for title in titles:
    for c in title:
        if c in "#<>[]|{}":
            raise ValueError(f"... article title '{title}' has forbidden character ({c}).")
titles = list(dict.fromkeys(titles))
```

Both functions are pure: they run before any query is built or sent.  Raised
`ValueError`s become an explicit error type that records which element (and,
for titles, which character) the error message references. -/

/-- `re.match('\s*$', x)`: `x` consists entirely of whitespace (or is empty). -/
def isSpaceOnly (s : String) : Bool := s.data.all (fun c => c.isWhitespace)

/-- Python `str.strip()`: remove leading and trailing whitespace. -/
def pyStrip (s : String) : String :=
  ⟨((s.data.dropWhile Char.isWhitespace).reverse.dropWhile Char.isWhitespace).reverse⟩

/-- `re.match(r'(?:Q|P)\d+$', q)` succeeds (applied to stripped strings, so the
`$`-before-final-newline subtlety cannot arise). -/
def matchEntity (s : String) : Bool :=
  match s.data with
  | [] => false
  | c :: rest => (c == 'Q' || c == 'P') && !rest.isEmpty && rest.all Char.isDigit

/-- The stripped-and-filtered work list both check functions start from. -/
def cleanedList (l : List String) : List String :=
  (l.filter (fun x => !isSpaceOnly x)).map pyStrip

inductive CheckErr where
  | emptyParam (param : String)
  | invalidEntity (q : String)
  | forbiddenChar (title : String) (c : Char)
  deriving DecidableEq, Repr

def checkEntities (entity_list : List String) : Except CheckErr (List String) :=
  let l := cleanedList entity_list
  if l.isEmpty then .error (.emptyParam "entity_list")
  else
    match l.find? (fun q => !matchEntity q) with
    | some q => .error (.invalidEntity q)
    | none => .ok (pyDedup l)

/-- The characters of the Python literal `"#<>[]|{}"` (braces by code point). -/
def forbiddenChars : List Char := ['#', '<', '>', '[', ']', '|', Char.ofNat 123, Char.ofNat 125]

/-- The nested `for title in titles: for c in title:` scan — the first title
containing a forbidden character, together with that character. -/
def findForbidden : List String → Option (String × Char)
  | [] => none
  | t :: rest =>
    match t.data.find? (fun c => decide (c ∈ forbiddenChars)) with
    | some c => some (t, c)
    | none => findForbidden rest

def checkTitles (titles : List String) : Except CheckErr (List String) :=
  let l := cleanedList titles
  if l.isEmpty then .error (.emptyParam "titles")
  else
    match findForbidden l with
    | some tc => .error (.forbiddenChar tc.1 tc.2)
    | none => .ok (pyDedup l)

/-- **C7 counterexample.** The claim demands that *every* input list containing
an element that is empty after trimming is rejected with an error referencing
that element.  The code instead silently drops whitespace-only elements: the
element `" "` of `["Q1", " "]` is empty after trimming, yet `checkEntities`
succeeds, returning `["Q1"]` and raising nothing. -/
theorem checkEntities_whitespace_dropped_cex :
    pyStrip " " = "" ∧ checkEntities ["Q1", " "] = .ok ["Q1"] := by
  constructor
  · decide
  · decide

theorem findForbidden_of_mem {l : List String} {t : String} {c : Char}
    (ht : t ∈ l) (hc : c ∈ t.data) (hf : c ∈ forbiddenChars) :
    ∃ t' c', findForbidden l = some (t', c') ∧ c' ∈ forbiddenChars ∧ c' ∈ t'.data
      ∧ t' ∈ l := by
  induction l with
  | nil => cases ht
  | cons s rest ih =>
    rw [findForbidden]
    rcases hfind : s.data.find? (fun c => decide (c ∈ forbiddenChars)) with _ | c'
    · rcases List.mem_cons.mp ht with rfl | ht'
      · exfalso
        have := List.find?_eq_none.mp hfind c hc
        simp [hf] at this
      · obtain ⟨t', c', h1, h2, h3, h4⟩ := ih ht'
        exact ⟨t', c', h1, h2, h3, List.mem_cons_of_mem s h4⟩
    · refine ⟨s, c', rfl, ?_, List.mem_of_find?_eq_some hfind, List.mem_cons_self s rest⟩
      have := List.find?_some hfind
      simpa using this

theorem findForbidden_eq_none {l : List String}
    (h : ∀ t ∈ l, ∀ c ∈ t.data, c ∉ forbiddenChars) : findForbidden l = none := by
  induction l with
  | nil => rfl
  | cons t rest ih =>
    rw [findForbidden]
    rw [List.find?_eq_none.mpr
      (fun c hc => by simpa using h t (List.mem_cons_self t rest) c hc)]
    exact ih (fun x hx c hc => h x (List.mem_cons_of_mem t hx) c hc)

/-- **C7 (amended).** Elements of the input list that are entirely whitespace
(hence empty after trimming) are silently dropped, not rejected: both check
functions are invariant under removing them (first two conjuncts).  If the
remaining stripped list is empty, a `ValueError` naming only the parameter is
raised.  Otherwise, if some remaining element fails the `(Q|P)\d+` pattern
(entities) or contains a forbidden character `# < > [ ] { } |` (titles), a
`ValueError` is raised that references an offending element; and when all
remaining elements are valid, each function returns the deduplicated list
(sixth conjunct for `checkEntities`, last conjunct for `checkTitles`).  Both
functions are pure, so all of this happens before any network request. -/
theorem check_functions_validate :
    (∀ l : List String, checkEntities (l.filter (fun x => !isSpaceOnly x)) = checkEntities l)
    ∧ (∀ l : List String, checkTitles (l.filter (fun x => !isSpaceOnly x)) = checkTitles l)
    ∧ (∀ l : List String, cleanedList l = [] →
        checkEntities l = .error (.emptyParam "entity_list")
          ∧ checkTitles l = .error (.emptyParam "titles"))
    ∧ (∀ (l : List String) (q : String), q ∈ cleanedList l → matchEntity q = false →
        ∃ q', checkEntities l = .error (.invalidEntity q')
          ∧ matchEntity q' = false ∧ q' ∈ cleanedList l)
    ∧ (∀ (l : List String) (t : String) (c : Char),
        t ∈ cleanedList l → c ∈ t.data → c ∈ forbiddenChars →
        ∃ t' c', checkTitles l = .error (.forbiddenChar t' c')
          ∧ c' ∈ forbiddenChars ∧ c' ∈ t'.data ∧ t' ∈ cleanedList l)
    ∧ (∀ l : List String, cleanedList l ≠ [] →
        (∀ q ∈ cleanedList l, matchEntity q = true) →
        checkEntities l = .ok (pyDedup (cleanedList l)))
    ∧ (∀ l : List String, cleanedList l ≠ [] →
        (∀ t ∈ cleanedList l, ∀ c ∈ t.data, c ∉ forbiddenChars) →
        checkTitles l = .ok (pyDedup (cleanedList l))) := by
  have hclean : ∀ l : List String,
      cleanedList (l.filter (fun x => !isSpaceOnly x)) = cleanedList l := by
    intro l
    unfold cleanedList
    rw [List.filter_filter]
    simp
  refine ⟨?_, ?_, ?_, ?_, ?_, ?_, ?_⟩
  · intro l
    unfold checkEntities
    rw [hclean]
  · intro l
    unfold checkTitles
    rw [hclean]
  · intro l hl
    unfold checkEntities checkTitles
    rw [hl]
    exact ⟨rfl, rfl⟩
  · intro l q hq hmatch
    have hfind : ((cleanedList l).find? (fun q => !matchEntity q)).isSome :=
      List.find?_isSome.mpr ⟨q, hq, by simp [hmatch]⟩
    obtain ⟨q', hq'⟩ := Option.isSome_iff_exists.mp hfind
    refine ⟨q', ?_, ?_, List.mem_of_find?_eq_some hq'⟩
    · unfold checkEntities
      rw [if_neg (by simp [List.isEmpty_iff]; exact List.ne_nil_of_mem hq), hq']
    · have := List.find?_some hq'
      simpa using this
  · intro l t c ht hc hf
    obtain ⟨t', c', h1, h2, h3, h4⟩ := findForbidden_of_mem ht hc hf
    refine ⟨t', c', ?_, h2, h3, h4⟩
    unfold checkTitles
    rw [if_neg (by simp [List.isEmpty_iff]; exact List.ne_nil_of_mem ht), h1]
  · intro l hne hall
    unfold checkEntities
    rw [if_neg (by simpa [List.isEmpty_iff] using hne)]
    rw [List.find?_eq_none.mpr (by intro q hq; simp [hall q hq])]
  · intro l hne hall
    unfold checkTitles
    rw [if_neg (by simpa [List.isEmpty_iff] using hne)]
    rw [findForbidden_eq_none hall]

/-- Witness for the amended C7, on the spec's end-to-end scenario: in
`["Q1", "Q1", "Q2", "bad id"]` the element `"bad id"` fails the entity
pattern, and `checkEntities` rejects the list with an error referencing a
pattern-failing element. -/
theorem check_functions_validate_witness :
    ∃ q', checkEntities ["Q1", "Q1", "Q2", "bad id"] = .error (.invalidEntity q')
      ∧ matchEntity q' = false ∧ q' ∈ cleanedList ["Q1", "Q1", "Q2", "bad id"] :=
  check_functions_validate.2.2.2.1 ["Q1", "Q1", "Q2", "bad id"] "bad id"
    (by decide) (by decide)

/-! ## `normalizedTitle` (wiki_utils.py lines 1997-2035)

```python
anorm = title
if 'normalized' in q:
    for nn in q['normalized']:
        # NFC normalization
        if 'fromencoded' in nn and nn['fromencoded'] and requests.utils.quote(anorm) == nn['from']:
            anorm = nn['to']
        # Uppercase normalization
        if nn['from'] == anorm:
            anorm = nn['to']
            break
normalized = None if anorm == title else anorm
target = None
if 'redirects' in q:
    for nn in q['redirects']:
        if nn['from'] == anorm:
            target = nn['to']
            break
return [normalized, target]
```

`requests.utils.quote` is `urllib.parse.quote` with its default `safe='/'`;
it is reimplemented below over explicit UTF-8 bytes so that the embedding is
executable. -/

/-- UTF-8 encoding of one code point. -/
def utf8Bytes (c : Char) : List Nat :=
  let n := c.toNat
  if n < 128 then [n]
  else if n < 2048 then [192 + n / 64, 128 + n % 64]
  else if n < 65536 then [224 + n / 4096, 128 + (n / 64) % 64, 128 + n % 64]
  else [240 + n / 262144, 128 + (n / 4096) % 64, 128 + (n / 64) % 64, 128 + n % 64]

/-- Uppercase hexadecimal digit, as `urllib.parse.quote` produces. -/
def hexDigit (n : Nat) : Char := if n < 10 then Char.ofNat (48 + n) else Char.ofNat (55 + n)

/-- One byte, percent-encoded unless it is unreserved (ASCII letter, digit,
`-._~`) or the default-safe `/`. -/
def quoteByte (b : Nat) : List Char :=
  if (65 ≤ b ∧ b ≤ 90) ∨ (97 ≤ b ∧ b ≤ 122) ∨ (48 ≤ b ∧ b ≤ 57)
      ∨ b = 45 ∨ b = 46 ∨ b = 95 ∨ b = 126 ∨ b = 47 then
    [Char.ofNat b]
  else
    ['%', hexDigit (b / 16), hexDigit (b % 16)]

/-- `requests.utils.quote(s)` (= `urllib.parse.quote(s)`, `safe='/'`). -/
def pyQuote (s : String) : String :=
  ⟨((s.data.map utf8Bytes).flatten.map quoteByte).flatten⟩

structure NormEntry where
  nfrom : String
  nto : String
  fromencoded : Option Bool
  deriving DecidableEq, Repr

structure RedirEntry where
  rfrom : String
  rto : String
  deriving DecidableEq, Repr

/-- The `query` part of the decoded JSON response, restricted to the metadata
`normalizedTitle` consults. -/
structure QueryMeta where
  normalized : Option (List NormEntry)
  redirects : Option (List RedirEntry)
  deriving DecidableEq, Repr

/-- The `for nn in q['normalized']` loop: one single pass over the entries; per
entry first the encoded rewrite (scan continues), then the plain rewrite
(scan breaks). -/
def normLoop (anorm : String) : List NormEntry → String
  | [] => anorm
  | nn :: rest =>
    let a1 := if nn.fromencoded == some true && pyQuote anorm == nn.nfrom then nn.nto else anorm
    if nn.nfrom == a1 then nn.nto
    else normLoop a1 rest

/-- The `for nn in q['redirects']` loop: first entry whose `from` equals the
current value wins. -/
def findRedirectTarget (anorm : String) : List RedirEntry → Option String
  | [] => none
  | nn :: rest => if nn.rfrom == anorm then some nn.rto else findRedirectTarget anorm rest

/-- `normalizedTitle(title, q)`, returning the pair `[normalized, target]`. -/
def normalizedTitle (title : String) (q : QueryMeta) : Option String × Option String :=
  let anorm := match q.normalized with
    | some entries => normLoop title entries
    | none => title
  let normalized := if anorm == title then none else some anorm
  let target := match q.redirects with
    | some entries => findRedirectTarget anorm entries
    | none => none
  (normalized, target)

/-- The normalization algorithm exactly as the claim states it: *first* a
percent-encoded normalization phase (an entry with `fromencoded` true whose
`from` equals the percent-encoding of the current value rewrites it to `to`),
*then* a plain normalization phase with first match winning; `normalized` is
null when the result equals the original title, and redirect resolution
matches the final value against the redirects list. -/
def normalizedTitleClaim (title : String) (q : QueryMeta) : Option String × Option String :=
  let entries := q.normalized.getD []
  let c1 := match entries.find? (fun nn => nn.fromencoded == some true && nn.nfrom == pyQuote title) with
    | some nn => nn.nto
    | none => title
  let c2 := match entries.find? (fun nn => nn.nfrom == c1) with
    | some nn => nn.nto
    | none => c1
  let normalized := if c2 == title then none else some c2
  let target := ((q.redirects.getD []).find? (fun nn => nn.rfrom == c2)).map RedirEntry.rto
  (normalized, target)

/-- `next(n for n in [target, normalized, title] if n is not None)` followed by
matching a page record by that key (`m_WikidataEntity`, lines 2283-2289): the
key under which the response record for `title` is looked up. -/
def resolvePageKey (title : String) (q : QueryMeta) : String :=
  match (normalizedTitle title q).2 with
  | some t => t
  | none =>
    match (normalizedTitle title q).1 with
    | some n => n
    | none => title

/-- **C3 counterexample.** The claim's two sequential phases disagree with the
code's single interleaved pass.  Metadata: a plain entry `B → C` listed before
an encoded entry `A → B` (and `quote "A" = "A"`).  The code scans once: the
first entry does not match `"A"`, the second (encoded) rewrites to `"B"`, and
no plain rewrite ever fires, so `normalized = "B"`.  The claim's algorithm
applies the encoded phase (giving `"B"`) and then the plain phase, where
`B → C` now matches, giving `normalized = "C"`. -/
theorem normalizedTitle_phase_order_cex :
    normalizedTitle "A" ⟨some [⟨"B", "C", none⟩, ⟨"A", "B", some true⟩], none⟩
        = (some "B", none)
    ∧ normalizedTitleClaim "A" ⟨some [⟨"B", "C", none⟩, ⟨"A", "B", some true⟩], none⟩
        = (some "C", none)
    ∧ normalizedTitle "A" ⟨some [⟨"B", "C", none⟩, ⟨"A", "B", some true⟩], none⟩
        ≠ normalizedTitleClaim "A" ⟨some [⟨"B", "C", none⟩, ⟨"A", "B", some true⟩], none⟩ := by
  refine ⟨by decide, by decide, by decide⟩

/-- One step of the single-pass normalization, as a fold: the state carries the
current value and whether the scan has stopped. -/
def normStep (st : String × Bool) (nn : NormEntry) : String × Bool :=
  if st.2 then st
  else
    let cur := if nn.fromencoded == some true && pyQuote st.1 == nn.nfrom then nn.nto else st.1
    if nn.nfrom == cur then (nn.nto, true) else (cur, false)

/-- The single pass the amended claim describes, written independently of
`normLoop` as a fold with a stop flag. -/
def normPassAmended (title : String) (entries : List NormEntry) : String :=
  (entries.foldl normStep (title, false)).1

theorem foldl_normStep_stopped (entries : List NormEntry) (s : String) :
    entries.foldl normStep (s, true) = (s, true) := by
  induction entries with
  | nil => rfl
  | cons nn rest ih => simpa [normStep] using ih

theorem normLoop_eq_normPassAmended (entries : List NormEntry) :
    ∀ s : String, normLoop s entries = normPassAmended s entries := by
  induction entries with
  | nil => intro s; rfl
  | cons nn rest ih =>
    intro s
    rw [normLoop, normPassAmended, List.foldl_cons]
    show _ = (List.foldl normStep (normStep (s, false) nn) rest).1
    rw [normStep]
    simp only [Bool.false_eq_true, if_false, reduceIte]
    by_cases hb : (nn.nfrom == if nn.fromencoded == some true && pyQuote s == nn.nfrom
        then nn.nto else s) = true
    · rw [if_pos hb, if_pos hb, foldl_normStep_stopped]
    · rw [if_neg hb, if_neg hb]
      exact ih _

/-- **C3 (amended).** The code applies the two normalization rewrites in one
single pass over the entries, in list order: for each entry, first the
percent-encoded rewrite (an entry with `fromencoded` true whose `from` equals
the percent-encoding of the *current* value rewrites it, and the scan
continues), then the plain rewrite, which stops the scan on match.  The rest
of the claim stands: `normalized` is null exactly when the final value equals
the original title; redirect resolution matches the final value against the
redirects list with first match winning; and the page record is associated to
the original title by the key `target` if non-null, else `normalized` if
non-null, else the original title. -/
theorem normalizedTitle_amended (title : String) (q : QueryMeta) :
    (∀ entries, normLoop title entries = normPassAmended title entries)
    ∧ (normalizedTitle title q).1
        = (if normPassAmended title (q.normalized.getD []) == title then none
           else some (normPassAmended title (q.normalized.getD [])))
    ∧ (normalizedTitle title q).2
        = ((q.redirects.getD []).find?
            (fun nn => nn.rfrom == normPassAmended title (q.normalized.getD []))).map
              RedirEntry.rto
    ∧ (∀ t, (normalizedTitle title q).2 = some t → resolvePageKey title q = t)
    ∧ ((normalizedTitle title q).2 = none → ∀ n, (normalizedTitle title q).1 = some n →
        resolvePageKey title q = n)
    ∧ ((normalizedTitle title q).2 = none → (normalizedTitle title q).1 = none →
        resolvePageKey title q = title) := by
  have hredir : ∀ (a : String) (entries : List RedirEntry),
      findRedirectTarget a entries
        = (entries.find? (fun nn => nn.rfrom == a)).map RedirEntry.rto := by
    intro a entries
    induction entries with
    | nil => rfl
    | cons nn rest ih =>
      rw [findRedirectTarget, List.find?]
      by_cases h : (nn.rfrom == a) = true
      · rw [if_pos h, h]
        rfl
      · rw [if_neg h, Bool.eq_false_iff.mpr (fun hh => h (hh ▸ rfl))]
        exact ih
  refine ⟨fun entries => normLoop_eq_normPassAmended entries title, ?_, ?_, ?_, ?_, ?_⟩
  · rcases hqn : q.normalized with _ | entries
    · simp [normalizedTitle, hqn, normPassAmended]
    · simp only [normalizedTitle, hqn, Option.getD_some]
      rw [normLoop_eq_normPassAmended]
  · rcases hqr : q.redirects with _ | rentries
    · rcases hqn : q.normalized with _ | entries <;> simp [normalizedTitle, hqn, hqr]
    · rcases hqn : q.normalized with _ | entries
      · simp only [normalizedTitle, hqn, hqr, Option.getD_some, Option.getD_none]
        rw [hredir]
        rfl
      · simp only [normalizedTitle, hqn, hqr, Option.getD_some]
        rw [hredir, normLoop_eq_normPassAmended]
  · intro t ht
    rw [resolvePageKey, ht]
  · intro ht n hn
    rw [resolvePageKey, ht, hn]
  · intro ht hn
    rw [resolvePageKey, ht, hn]

/-- Witness for the amended C3: title `"a"` normalized by entry `a → A`, then
redirected by `A → Caron`; the record key resolves to the redirect target
`"Caron"`. -/
theorem normalizedTitle_amended_witness :
    resolvePageKey "a" ⟨some [⟨"a", "A", none⟩], some [⟨"A", "Caron"⟩]⟩ = "Caron" :=
  (normalizedTitle_amended "a" ⟨some [⟨"a", "A", none⟩], some [⟨"A", "Caron"⟩]⟩).2.2.2.1
    "Caron" (by decide)

/-! ## `reqWDQS` (wiki_utils.py lines 140-205)

```python
while True:
    response = requests.get/post(...)
    if response.status_code == 429:
        t = response.headers['Retry-after']
        m = re.match(r'^\d+$', t)
        if m is None:
            t = int(http2time(t) - int(time()))
        else:
            t = int(t)
        if t > 600:
            raise("ERROR: receive a 429 status-code response, but retry-after > 600")
        print(...); sleep(t); continue
    response.raise_for_status()
    rtype = response.headers['Content-Type']
    if format == 'json' and rtype.startswith("application/sparql-results+json"):
        return response.json()
    if format == 'xml' and rtype.startswith("application/sparql-results+xml"):
        return response.text
    if format == 'csv' and rtype.startswith("text/csv"):
        return pd.read_csv(StringIO(response.text, newline=''), dtype=str)
    else:
        raise ValueError(f"reqWDQS() format '{format}' or response type '{rtype}' is incorrect")
```

A response is modelled with its status code, optional `Retry-after` header,
content type and body, plus `nowAt`, the value of `int(time())` at the moment
the response is processed.  `http.cookiejar.http2time` (the HTTP-date parser,
a library function) is a parameter `h2t` mapping the header string to epoch
seconds.  The loop runs against a finite script of responses and returns the
trace of the sleeps it performed together with the outcome.  Note that the
over-limit branch executes `raise("...")`, which in Python 3 raises a
`TypeError` (a string is not an exception) — either way the call fails at that
point without sleeping; the embedding records it as `rateLimitExceeded`. -/

structure WDQSResponse where
  status : Nat
  retryAfter : Option String
  nowAt : Int
  contentType : String
  body : String
  deriving DecidableEq, Repr

/-- `str.startswith(p)`, over the character lists so that it evaluates in the
kernel. -/
def pyStartsWith (s p : String) : Bool := p.data.isPrefixOf s.data

/-- `re.match(r'^\d+$', t)` succeeds. -/
def isDigits (s : String) : Bool := !s.isEmpty && s.data.all Char.isDigit

/-- `int(t)` for a digit string. -/
def digitsToNat (s : String) : Nat := s.data.foldl (fun n c => 10 * n + (c.toNat - 48)) 0

/-- Lines 183-188: the wait computed from the `Retry-after` header value `t`:
a pure-integer value is the wait in seconds, otherwise the value is parsed as
an HTTP-date (`h2t`) and the wait is that target time minus `now`. -/
def retryWait (h2t : String → Int) (now : Int) (t : String) : Int :=
  if isDigits t then (digitsToNat t : Int) else h2t t - now

inductive WDQSBody where
  | jsonBody (s : String)
  | textBody (s : String)
  | csvBody (s : String)
  deriving DecidableEq, Repr

inductive WDQSOut where
  | ok (b : WDQSBody)
  | keyError
  | rateLimitExceeded (wait : Int)
  | httpError (status : Nat)
  | formatMismatch (format rtype : String)
  | scriptEnded
  deriving DecidableEq, Repr

def reqWDQSLoop (h2t : String → Int) (fmt : String) :
    List WDQSResponse → List Int × WDQSOut
  | [] => ([], .scriptEnded)
  | r :: rest =>
    if r.status = 429 then
      match r.retryAfter with
      | none => ([], .keyError)
      | some t =>
        let w := retryWait h2t r.nowAt t
        if w > 600 then ([], .rateLimitExceeded w)
        else
          let res := reqWDQSLoop h2t fmt rest
          (w :: res.1, res.2)
    else if 400 ≤ r.status ∧ r.status < 600 then ([], .httpError r.status)
    else if fmt = "json" ∧ pyStartsWith r.contentType "application/sparql-results+json" = true then
      ([], .ok (.jsonBody r.body))
    else if fmt = "xml" ∧ pyStartsWith r.contentType "application/sparql-results+xml" = true then
      ([], .ok (.textBody r.body))
    else if fmt = "csv" ∧ pyStartsWith r.contentType "text/csv" = true then
      ([], .ok (.csvBody r.body))
    else ([], .formatMismatch fmt r.contentType)

/-- **C4.** On HTTP 429 the requester reads `Retry-After`: a pure-integer
value is that many seconds, otherwise the value is parsed as an HTTP-date and
the wait is the target time minus now (first two conjuncts).  If the computed
wait exceeds 600 seconds the call fails at once — no sleep is recorded and no
further request issued (third conjunct).  Otherwise it sleeps exactly the
computed wait and retries the same request, with no bound on the number of
such retries: for *any* number of consecutive 429 responses whose computed
waits are ≤ 600, the loop sleeps each computed wait (fresh from each response)
and carries on (fourth conjunct). -/
theorem reqWDQS_429_retry (h2t : String → Int) (fmt : String) :
    (∀ (now : Int) (t : String), isDigits t = true →
      retryWait h2t now t = (digitsToNat t : Int))
    ∧ (∀ (now : Int) (t : String), isDigits t = false →
      retryWait h2t now t = h2t t - now)
    ∧ (∀ (r : WDQSResponse) (rest : List WDQSResponse) (t : String),
      r.status = 429 → r.retryAfter = some t → retryWait h2t r.nowAt t > 600 →
      reqWDQSLoop h2t fmt (r :: rest)
        = ([], .rateLimitExceeded (retryWait h2t r.nowAt t)))
    ∧ (∀ (rs rest : List WDQSResponse),
      (∀ r ∈ rs, r.status = 429
        ∧ ∃ t, r.retryAfter = some t ∧ retryWait h2t r.nowAt t ≤ 600) →
      reqWDQSLoop h2t fmt (rs ++ rest)
        = (rs.map (fun r => retryWait h2t r.nowAt (r.retryAfter.getD ""))
            ++ (reqWDQSLoop h2t fmt rest).1,
           (reqWDQSLoop h2t fmt rest).2)) := by
  refine ⟨?_, ?_, ?_, ?_⟩
  · intro now t ht
    rw [retryWait, if_pos ht]
  · intro now t ht
    rw [retryWait, if_neg (by rw [ht]; exact Bool.false_ne_true)]
  · intro r rest t hst hra hw
    rw [reqWDQSLoop, if_pos hst, hra]
    simp only [if_pos hw]
  · intro rs
    induction rs with
    | nil => intro rest _; simp
    | cons r rs ih =>
      intro rest hall
      obtain ⟨hst, t, hra, hw⟩ := hall r (List.mem_cons_self r rs)
      have hgt : ¬ (retryWait h2t r.nowAt t > 600) := by omega
      rw [List.cons_append, reqWDQSLoop, if_pos hst, hra]
      simp only [if_neg hgt]
      rw [ih rest (fun x hx => hall x (List.mem_cons_of_mem r hx))]
      simp [hra]

/-- Witness for C4: the spec's retry-after scenarios.  Integer `"120"` parses
to a 120-second wait; a non-integer HTTP-date whose target lies 1000 seconds
past `now` exceeds the 600-second ceiling, so the requester fails immediately
with no sleep recorded. -/
theorem reqWDQS_429_retry_witness :
    retryWait (fun _ => (1000 : Int)) 0 "120" = 120
    ∧ reqWDQSLoop (fun _ => (1000 : Int)) "json"
        [⟨429, some "Fri, 31 Dec 1999 23:59:59 GMT", 0, "", ""⟩]
      = ([], .rateLimitExceeded 1000) := by
  constructor
  · exact ((reqWDQS_429_retry (fun _ => (1000 : Int)) "json").1 0 "120"
      (by decide)).trans (by decide)
  · exact ((reqWDQS_429_retry (fun _ => (1000 : Int)) "json").2.2.1
      ⟨429, some "Fri, 31 Dec 1999 23:59:59 GMT", 0, "", ""⟩ []
      "Fri, 31 Dec 1999 23:59:59 GMT" rfl rfl (by decide)).trans (by decide)

/-- The content type that matches the caller's requested representation. -/
def matchesFormat (fmt rtype : String) : Bool :=
  if fmt = "json" then pyStartsWith rtype "application/sparql-results+json"
  else if fmt = "xml" then pyStartsWith rtype "application/sparql-results+xml"
  else if fmt = "csv" then pyStartsWith rtype "text/csv"
  else false

/-- The body in the caller's requested representation. -/
def wrapBody (fmt body : String) : WDQSBody :=
  if fmt = "json" then .jsonBody body
  else if fmt = "xml" then .textBody body
  else .csvBody body

/-- **C8.** On a successful (2xx) response: when the declared content type does
not match the requested representation (`json`, `xml` or `csv`), `reqWDQS`
fails with an error naming both the requested format and the actual content
type; when it matches, the body is returned in the requested
representation. -/
theorem reqWDQS_content_type_check (h2t : String → Int) (fmt : String)
    (r : WDQSResponse) (rest : List WDQSResponse)
    (h2xx : 200 ≤ r.status ∧ r.status < 300)
    (hfmt : fmt = "json" ∨ fmt = "xml" ∨ fmt = "csv") :
    (matchesFormat fmt r.contentType = false →
      reqWDQSLoop h2t fmt (r :: rest) = ([], .formatMismatch fmt r.contentType))
    ∧ (matchesFormat fmt r.contentType = true →
      reqWDQSLoop h2t fmt (r :: rest) = ([], .ok (wrapBody fmt r.body))) := by
  have h429 : ¬ (r.status = 429) := by omega
  have h4xx : ¬ (400 ≤ r.status ∧ r.status < 600) := by omega
  constructor
  · intro hmm
    rw [reqWDQSLoop, if_neg h429, if_neg h4xx]
    rcases hfmt with rfl | rfl | rfl
    · rw [matchesFormat, if_pos rfl] at hmm
      rw [if_neg (fun h => by rw [h.2] at hmm; cases hmm)]
      rw [if_neg (fun h => absurd h.1 (by decide))]
      rw [if_neg (fun h => absurd h.1 (by decide))]
    · rw [matchesFormat, if_neg (by decide), if_pos rfl] at hmm
      rw [if_neg (fun h => absurd h.1 (by decide))]
      rw [if_neg (fun h => by rw [h.2] at hmm; cases hmm)]
      rw [if_neg (fun h => absurd h.1 (by decide))]
    · rw [matchesFormat, if_neg (by decide), if_neg (by decide), if_pos rfl] at hmm
      rw [if_neg (fun h => absurd h.1 (by decide))]
      rw [if_neg (fun h => absurd h.1 (by decide))]
      rw [if_neg (fun h => by rw [h.2] at hmm; cases hmm)]
  · intro hmm
    rw [reqWDQSLoop, if_neg h429, if_neg h4xx]
    rcases hfmt with rfl | rfl | rfl
    · rw [matchesFormat, if_pos rfl] at hmm
      rw [if_pos ⟨rfl, hmm⟩, wrapBody, if_pos rfl]
    · rw [matchesFormat, if_neg (by decide), if_pos rfl] at hmm
      rw [if_neg (fun h => absurd h.1 (by decide)), if_pos ⟨rfl, hmm⟩]
      rw [wrapBody, if_neg (by decide), if_pos rfl]
    · rw [matchesFormat, if_neg (by decide), if_neg (by decide), if_pos rfl] at hmm
      rw [if_neg (fun h => absurd h.1 (by decide)), if_neg (fun h => absurd h.1 (by decide)), if_pos ⟨rfl, hmm⟩]
      rw [wrapBody, if_neg (by decide), if_neg (by decide)]

/-- Witness for C8: requesting `csv` but receiving JSON on a 200 response
fails naming both types; receiving `text/csv` returns the CSV body. -/
theorem reqWDQS_content_type_check_witness :
    reqWDQSLoop (fun _ => (0 : Int)) "csv"
        [⟨200, none, 0, "application/sparql-results+json", "b1"⟩]
      = ([], .formatMismatch "csv" "application/sparql-results+json")
    ∧ reqWDQSLoop (fun _ => (0 : Int)) "csv" [⟨200, none, 0, "text/csv", "b2"⟩]
      = ([], .ok (.csvBody "b2")) := by
  constructor
  · exact ((reqWDQS_content_type_check (fun _ => (0 : Int)) "csv"
      ⟨200, none, 0, "application/sparql-results+json", "b1"⟩ [] (by decide)
      (by decide)).1 (by decide)).trans (by decide)
  · exact ((reqWDQS_content_type_check (fun _ => (0 : Int)) "csv"
      ⟨200, none, 0, "text/csv", "b2"⟩ [] (by decide) (by decide)).2
      (by decide)).trans (by decide)

/-! ## `reqMediaWiki` (wiki_utils.py lines 1925, 1963-1993)

```python
def reqMediaWiki(query, project='en.wikipedia.org', method='GET', attempts=2, debug=False):
    ...
    nt = 0
    while True:
        nt += 1
        response = requests.get/post(...)
        response.raise_for_status()
        j = response.json()
        if 'error' not in j:
            return j
        if j['error']['code'] == 'ratelimited':
            if nt <= attempts:
                print(f"WARNING: Ratelimited error. Sleeping {60*nt} seconds", )
                sleep(60*nt)
            else:
                raise NameError(f'{nt} ratelimited attemps achieved, aborting.')
        else:
            raise NameError(f"ERROR: reqMediaWiki: {j['error']['code']}: {j['error']['info']}")
```

A scripted response is either an HTTP error (`raise_for_status` raises), a
JSON body without an `error` key (returned), or a JSON body whose
`error.code` is given.  The loop returns the list of performed sleeps (in
seconds, in order) and the outcome. -/

inductive MWResp (J : Type) where
  | httpErr (code : Nat)
  | okJson (j : J)
  | errJson (code : String)
  deriving DecidableEq, Repr

inductive MWOut (J : Type) where
  | ok (j : J)
  | httpError (code : Nat)
  | ratelimitAbort (nt : Nat)
  | otherError (code : String)
  | scriptEnded
  deriving DecidableEq, Repr

def reqMWLoop {J : Type} (attempts : Nat) :
    List (MWResp J) → Nat → List Nat × MWOut J
  | [], _ => ([], .scriptEnded)
  | r :: rest, nt0 =>
    match r with
    | .httpErr c => ([], .httpError c)
    | .okJson j => ([], .ok j)
    | .errJson code =>
      if code = "ratelimited" then
        if nt0 + 1 ≤ attempts then
          let res := reqMWLoop attempts rest (nt0 + 1)
          (60 * (nt0 + 1) :: res.1, res.2)
        else ([], .ratelimitAbort (nt0 + 1))
      else ([], .otherError code)

def reqMediaWiki {J : Type} (attempts : Nat) (script : List (MWResp J)) :
    List Nat × MWOut J :=
  reqMWLoop attempts script 0

/-- The default of the `attempts` parameter in the source's signature. -/
def defaultAttempts : Nat := 2

theorem reqMWLoop_ratelimited_ok {J : Type} (attempts : Nat) :
    ∀ (k nt : Nat) (j : J) (rest : List (MWResp J)), nt + k ≤ attempts →
      reqMWLoop attempts
          (List.replicate k (.errJson "ratelimited") ++ .okJson j :: rest) nt
        = ((List.range' (nt + 1) k).map (fun n => 60 * n), .ok j) := by
  intro k
  induction k with
  | zero => intro nt j rest _; rfl
  | succ k ih =>
    intro nt j rest hle
    rw [List.replicate_succ, List.cons_append, reqMWLoop]
    rw [if_pos rfl, if_pos (by omega)]
    simp only [ih (nt + 1) j rest (by omega)]
    rw [List.range'_succ, List.map_cons]

theorem reqMWLoop_ratelimited_abort {J : Type} (attempts : Nat) :
    ∀ (m nt : Nat) (rest : List (MWResp J)), 1 ≤ m → nt + m = attempts + 1 →
      reqMWLoop attempts (List.replicate m (.errJson "ratelimited") ++ rest) nt
        = ((List.range' (nt + 1) (m - 1)).map (fun n => 60 * n),
           .ratelimitAbort (attempts + 1)) := by
  intro m
  induction m with
  | zero => intro nt rest h; omega
  | succ m ih =>
    intro nt rest _ heq
    rw [List.replicate_succ, List.cons_append, reqMWLoop, if_pos rfl]
    rcases Nat.eq_zero_or_pos m with rfl | hm
    · rw [if_neg (by omega)]
      have : nt + 1 = attempts + 1 := heq
      simp [this]
    · rw [if_pos (by omega)]
      simp only [ih (nt + 1) rest (by omega) (by omega)]
      have hs : m + 1 - 1 = (m - 1) + 1 := by omega
      rw [hs, List.range'_succ, List.map_cons]

/-- **C10.** Unlike the unbounded 429 path of `reqWDQS`, the `ratelimited`
recovery of `reqMediaWiki` is bounded: when the decoded JSON carries error
code `ratelimited`, the `n`-th retry is preceded by a sleep of `60*n` seconds
and at most `attempts` retries are performed (first conjunct: `k ≤ attempts`
rate-limited pages then a success give sleeps `60*1, …, 60*k` and the
response); once the bound is exceeded it raises instead of retrying (second
conjunct: `attempts+1` rate-limited pages abort after only `attempts` sleeps);
any other JSON error code raises immediately with no sleep and no retry
(third conjunct); and the source's default for `attempts` is 2 (fourth
conjunct). -/
theorem reqMediaWiki_bounded_ratelimit {J : Type} (attempts : Nat) :
    (∀ (k : Nat) (j : J) (rest : List (MWResp J)), k ≤ attempts →
      reqMediaWiki attempts
          (List.replicate k (.errJson "ratelimited") ++ .okJson j :: rest)
        = ((List.range' 1 k).map (fun n => 60 * n), .ok j))
    ∧ (∀ rest : List (MWResp J),
      reqMediaWiki attempts
          (List.replicate (attempts + 1) (.errJson "ratelimited") ++ rest)
        = ((List.range' 1 attempts).map (fun n => 60 * n),
           .ratelimitAbort (attempts + 1)))
    ∧ (∀ (code : String) (rest : List (MWResp J)), code ≠ "ratelimited" →
      reqMediaWiki attempts (.errJson code :: rest) = ([], .otherError code))
    ∧ defaultAttempts = 2 := by
  refine ⟨?_, ?_, ?_, rfl⟩
  · intro k j rest hk
    exact reqMWLoop_ratelimited_ok attempts k 0 j rest (by omega)
  · intro rest
    have h := reqMWLoop_ratelimited_abort (J := J) attempts (attempts + 1) 0 rest
      (by omega) (by omega)
    simpa using h
  · intro code rest hcode
    rw [reqMediaWiki, reqMWLoop, if_neg hcode]

/-- Witness for C10 at the default `attempts = 2`: two rate-limited responses
then a success sleep 60 and 120 seconds and return the body; three
rate-limited responses abort after the two sleeps; a `badtoken` error raises
at once with no sleep. -/
theorem reqMediaWiki_bounded_ratelimit_witness :
    reqMediaWiki 2 [.errJson "ratelimited", .errJson "ratelimited", .okJson (7 : Nat)]
      = ([60, 120], .ok 7)
    ∧ reqMediaWiki (J := Nat) 2
        [.errJson "ratelimited", .errJson "ratelimited", .errJson "ratelimited"]
      = ([60, 120], .ratelimitAbort 3)
    ∧ reqMediaWiki (J := Nat) 2 [.errJson "badtoken"] = ([], .otherError "badtoken") := by
  refine ⟨?_, ?_, ?_⟩
  · exact ((reqMediaWiki_bounded_ratelimit (J := Nat) 2).1 2 7 [] (by decide)).trans
      (by decide)
  · exact ((reqMediaWiki_bounded_ratelimit (J := Nat) 2).2.1 []).trans (by decide)
  · exact (reqMediaWiki_bounded_ratelimit (J := Nat) 2).2.2.1 "badtoken" [] (by decide)

end WikiUtils
